import Mathlib

/-!
Verification development for the borg chat-bot engine.

Shallow embedding of the core (pattern matching, behavior resolution,
dictionary/index engine, decision engine) translated from the Rust source:
`src/pattern.rs`, `src/config.rs`, `src/dictionary.rs`, `src/borg.rs`.

Modelling conventions:
* A compiled regex is abstracted as its matching predicate `String → Bool`;
  the engine only ever calls `Regex::is_match`.
* `f32` probability values are modelled as `ℚ`: every `f32` is a rational
  (NaN aside), `u32 as f32` is exact for the residues `0..=99` that the code
  compares, and `f32` comparison agrees with the comparison of the
  represented rationals.
* The `SmallRng` random source is modelled as the explicit list of values
  produced by successive `next_u32` calls (an exhausted list yields 0;
  the claims never exhaust it).
* Rust `panic!` is modelled as a dedicated result constructor: a panic
  aborts the computation and is distinct from any returned value.
* `HashMap<String, Vec<usize>>` is modelled as an association list with
  unique keys; the code never iterates the map, so its iteration order is
  irrelevant and the insertion-ordered list is a faithful refinement.
-/

/-! ## Pattern matching (`src/pattern.rs`) -/

/-- Embeds `pattern::Pattern`: `compiled` is the memoised regex (abstracted as
its matching predicate), `original` the configured pattern text. -/
structure Pattern where
  compiled : Option (String → Bool)
  original : String

/-- Result of `pattern::matches_any`. The Rust function returns
`Option<&Pattern>` and has no error channel at all; reaching a pattern whose
`compiled` field is `None` executes `panic!("Pattern {:?} is not compiled", p)`,
modelled by the `panicked` constructor. -/
inductive MatchResult where
  | found (p : Pattern)
  | notFound
  | panicked (p : Pattern)

/-- Embeds `pattern::matches_any` (pattern.rs lines 73-88): walk the patterns
in order; on the first compiled pattern that matches, return it; on an
uncompiled pattern, panic. -/
def matches_any (input : String) : List Pattern → MatchResult
  | [] => .notFound
  | p :: rest =>
    match p.compiled with
    | some regex => if regex input then .found p else matches_any input rest
    | none => .panicked p

/-! ## Behavior configuration (`src/config.rs`) -/

/-- Embeds `config::MainBehavior` (config.rs lines 91-102). -/
structure MainBehavior where
  speaking : Bool
  learning : Bool
  reply_rate : ℚ
  reply_nick : ℚ
  reply_magic : ℚ
  nick_patterns : List Pattern
  magic_patterns : List Pattern
  blacklisted_patterns : List Pattern
  ignored_users : List Pattern

/-- Embeds `config::BehaviorOverride` (config.rs lines 126-137): every field
optional. -/
structure BehaviorOverride where
  speaking : Option Bool
  learning : Option Bool
  reply_rate : Option ℚ
  reply_nick : Option ℚ
  reply_magic : Option ℚ
  nick_patterns : Option (List Pattern)
  magic_patterns : Option (List Pattern)
  blacklisted_patterns : Option (List Pattern)
  ignored_users : Option (List Pattern)

/-- Embeds `config::BehaviorOverrideValueResolver` (config.rs lines 359-362):
an override layer plus an optional boxed nested resolver.
`base b` is the Rust value with `override_: None`, `layer b o` the value with
`override_: Some(Box(o))`. -/
inductive BehaviorOverrideValueResolver where
  | base (behavior : BehaviorOverride)
  | layer (behavior : BehaviorOverride) (override_ : BehaviorOverrideValueResolver)

namespace BehaviorOverrideValueResolver

/-- Embeds `BehaviorOverrideValueResolver::is_speaking` (config.rs 379-384):
`self.override_.as_ref().map(|o| o.is_speaking()).unwrap_or(self.behavior.speaking)`. -/
def is_speaking : BehaviorOverrideValueResolver → Option Bool
  | .base b => b.speaking
  | .layer _ o => o.is_speaking

/-- Embeds `BehaviorOverrideValueResolver::is_learning` (config.rs 386-391).
The source maps the nested resolver through `o.is_speaking()` (not
`o.is_learning()`); the embedding reproduces that literally. -/
def is_learning : BehaviorOverrideValueResolver → Option Bool
  | .base b => b.learning
  | .layer _ o => o.is_speaking

/-- Embeds `BehaviorOverrideValueResolver::reply_rate` (config.rs 393-398). -/
def reply_rate : BehaviorOverrideValueResolver → Option ℚ
  | .base b => b.reply_rate
  | .layer _ o => o.reply_rate

/-- Embeds `BehaviorOverrideValueResolver::reply_magic` (config.rs 400-405). -/
def reply_magic : BehaviorOverrideValueResolver → Option ℚ
  | .base b => b.reply_magic
  | .layer _ o => o.reply_magic

/-- Embeds `BehaviorOverrideValueResolver::reply_nick` (config.rs 407-412). -/
def reply_nick : BehaviorOverrideValueResolver → Option ℚ
  | .base b => b.reply_nick
  | .layer _ o => o.reply_nick

/-- Embeds `BehaviorOverrideValueResolver::nick_patterns` (config.rs 414-419). -/
def nick_patterns : BehaviorOverrideValueResolver → Option (List Pattern)
  | .base b => b.nick_patterns
  | .layer _ o => o.nick_patterns

/-- Embeds `BehaviorOverrideValueResolver::magic_patterns` (config.rs 421-426). -/
def magic_patterns : BehaviorOverrideValueResolver → Option (List Pattern)
  | .base b => b.magic_patterns
  | .layer _ o => o.magic_patterns

/-- Embeds `BehaviorOverrideValueResolver::blacklisted_patterns` (config.rs 428-433). -/
def blacklisted_patterns : BehaviorOverrideValueResolver → Option (List Pattern)
  | .base b => b.blacklisted_patterns
  | .layer _ o => o.blacklisted_patterns

/-- Embeds `BehaviorOverrideValueResolver::ignored_users` (config.rs 435-440). -/
def ignored_users : BehaviorOverrideValueResolver → Option (List Pattern)
  | .base b => b.ignored_users
  | .layer _ o => o.ignored_users

end BehaviorOverrideValueResolver

/-- Embeds `config::BehaviorValueResolver` (config.rs lines 271-274). -/
structure BehaviorValueResolver where
  behavior : MainBehavior
  override_ : Option BehaviorOverrideValueResolver

namespace BehaviorValueResolver

/-- Embeds `BehaviorValueResolver::is_speaking` (config.rs 291-296):
`self.override_.as_ref().and_then(|o| o.is_speaking()).unwrap_or(self.behavior.speaking)`. -/
def is_speaking (r : BehaviorValueResolver) : Bool :=
  (r.override_.bind fun o => o.is_speaking).getD r.behavior.speaking

/-- Embeds `BehaviorValueResolver::is_learning` (config.rs 298-303). The
source again consults `o.is_speaking()` on the override; reproduced literally. -/
def is_learning (r : BehaviorValueResolver) : Bool :=
  (r.override_.bind fun o => o.is_speaking).getD r.behavior.learning

/-- Embeds `BehaviorValueResolver::reply_rate` (config.rs 305-310). -/
def reply_rate (r : BehaviorValueResolver) : ℚ :=
  (r.override_.bind fun o => o.reply_rate).getD r.behavior.reply_rate

/-- Embeds `BehaviorValueResolver::reply_magic` (config.rs 312-317). -/
def reply_magic (r : BehaviorValueResolver) : ℚ :=
  (r.override_.bind fun o => o.reply_magic).getD r.behavior.reply_magic

/-- Embeds `BehaviorValueResolver::reply_nick` (config.rs 319-324). -/
def reply_nick (r : BehaviorValueResolver) : ℚ :=
  (r.override_.bind fun o => o.reply_nick).getD r.behavior.reply_nick

/-- Embeds `BehaviorValueResolver::nick_patterns` (config.rs 326-331). -/
def nick_patterns (r : BehaviorValueResolver) : List Pattern :=
  (r.override_.bind fun o => o.nick_patterns).getD r.behavior.nick_patterns

/-- Embeds `BehaviorValueResolver::magic_patterns` (config.rs 333-338). -/
def magic_patterns (r : BehaviorValueResolver) : List Pattern :=
  (r.override_.bind fun o => o.magic_patterns).getD r.behavior.magic_patterns

/-- Embeds `BehaviorValueResolver::blacklisted_patterns` (config.rs 340-345). -/
def blacklisted_patterns (r : BehaviorValueResolver) : List Pattern :=
  (r.override_.bind fun o => o.blacklisted_patterns).getD r.behavior.blacklisted_patterns

/-- Embeds `BehaviorValueResolver::ignored_users` (config.rs 347-352). -/
def ignored_users (r : BehaviorValueResolver) : List Pattern :=
  (r.override_.bind fun o => o.ignored_users).getD r.behavior.ignored_users

end BehaviorValueResolver

/-! ## Decision engine (`src/borg.rs`) -/

/-- One `next_u32` call on the modelled random source. -/
def next_u32 : List Nat → Nat × List Nat
  | [] => (0, [])
  | v :: rest => (v, rest)

/-- Embeds `borg::chance` (borg.rs 134-137) applied to an already drawn
32-bit value `v`: `let p = v % 100; p as f32 > chance || p == 100`. -/
def chance (c : ℚ) (v : Nat) : Bool :=
  let p := v % 100
  decide ((p : ℚ) > c) || decide (p = 100)

/-- Result of `Borg::should_reply_to`: the decision plus the remaining random
source, or a panic raised from `matches_any`. -/
inductive ReplyResult where
  | ok (replied : Bool) (rng : List Nat)
  | panicked (p : Pattern)

/-- The final fallback of `Borg::should_reply_to` (borg.rs 122-130): draw
once against the effective reply rate and return the draw's outcome. -/
def reply_rate_step (b : BehaviorValueResolver) (rng : List Nat) : ReplyResult :=
  let (v, rng1) := next_u32 rng
  .ok (chance b.reply_rate v) rng1

/-- The magic-pattern check of `Borg::should_reply_to` (borg.rs 110-120)
followed by the reply-rate fallback: a successful draw returns true, a failed
draw falls through. -/
def magic_then_rate (b : BehaviorValueResolver) (input : String) (rng : List Nat) :
    ReplyResult :=
  match matches_any input b.magic_patterns with
  | .panicked p => .panicked p
  | .found _ =>
    let (v, rng1) := next_u32 rng
    if chance b.reply_magic v then .ok true rng1 else reply_rate_step b rng1
  | .notFound => reply_rate_step b rng

/-- Embeds `Borg::should_reply_to` (borg.rs 76-131), with the behavior field
of the `Borg` and the random source passed explicitly. Check order: ignored
users (immediate `true`), the speaking gate, nick patterns (draw, fall through
on failure), magic patterns (draw, fall through on failure), reply rate. -/
def should_reply_to (behavior : MainBehavior) (user_id input : String)
    (ov : Option BehaviorOverrideValueResolver) (rng : List Nat) : ReplyResult :=
  let b : BehaviorValueResolver := ⟨behavior, ov⟩
  match matches_any user_id b.ignored_users with
  | .panicked p => .panicked p
  | .found _ => .ok true rng
  | .notFound =>
    if !b.is_speaking then .ok false rng
    else
      match matches_any input b.nick_patterns with
      | .panicked p => .panicked p
      | .found _ =>
        let (v, rng1) := next_u32 rng
        if chance b.reply_nick v then .ok true rng1 else magic_then_rate b input rng1
      | .notFound => magic_then_rate b input rng

/-! ## Dictionary and word index (`src/dictionary.rs`) -/

/-- Embeds Rust `str::to_lowercase`, character by character. Core
`Char.toLower` lowers exactly the ASCII range, which agrees with Rust on all
inputs relevant here. -/
def str_toLower (s : String) : String := String.mk (s.data.map Char.toLower)

/-- Whitespace class of the `\s` regex atom (ASCII fragment). -/
def isWs (c : Char) : Bool := c == ' ' || c == '\t' || c == '\n' || c == '\r'

/-- Character class `[.!?]` of the sentence-splitting regex. -/
def isSentTerm (c : Char) : Bool := c == '.' || c == '!' || c == '?'

/-- Character class `[,.!?:\s]` of the word-splitting regex. -/
def isWordSep (c : Char) : Bool :=
  c == ',' || c == '.' || c == '!' || c == '?' || c == ':' || isWs c

/-- Embeds `dictionary::split_words` (dictionary.rs 178-183): split on runs
of `[,.!?:\s]+` and discard empty fragments. Splitting at every separator
character and then dropping empty fragments is extensionally the same as
splitting at each maximal separator run. -/
def split_words (s : String) : List String :=
  ((s.data.splitOnP isWordSep).map String.mk).filter fun w => !(w == "")

/-- Worker for `split_sentences`. The second argument is `some cur` with the
current fragment accumulated in reverse, or `none` while consuming the
whitespace run of a separator. A separator of the regex
`(?<=[.!?]+)\s+` is a maximal whitespace run whose preceding character is one
of `[.!?]`. -/
def sentAux : List Char → Option (List Char) → List (List Char)
  | [], none => [[]]
  | [], some cur => [cur.reverse]
  | c :: rest, none =>
    if isWs c then sentAux rest none else sentAux rest (some [c])
  | c :: rest, some cur =>
    if isWs c && (match cur with | p :: _ => isSentTerm p | [] => false)
    then cur.reverse :: sentAux rest none
    else sentAux rest (some (c :: cur))

/-- Embeds `dictionary::split_sentences` (dictionary.rs 171-176): split on
`(?<=[.!?]+)\s+` and discard empty fragments. -/
def split_sentences (s : String) : List String :=
  ((sentAux s.data (some [])).map String.mk).filter fun w => !(w == "")

/-- Lexicographic comparison of character lists by code point; the order Rust
`Ord for String` induces (byte-wise comparison of UTF-8 agrees with
code-point order). -/
def charListCmp : List Char → List Char → Ordering
  | [], [] => .eq
  | [], _ :: _ => .lt
  | _ :: _, [] => .gt
  | a :: as, b :: bs =>
    if a.toNat < b.toNat then .lt
    else if b.toNat < a.toNat then .gt
    else charListCmp as bs

/-- Embeds Rust `Ord::cmp` on `String`. -/
def strCmp (a b : String) : Ordering := charListCmp a.data b.data

/-- The comparator of `dictionary::sort_sentences` (dictionary.rs 185-187),
as the relation `a.to_lowercase() <= b.to_lowercase()`. -/
def lowerLe (a b : String) : Prop := strCmp (str_toLower a) (str_toLower b) ≠ .gt

instance : DecidableRel lowerLe := fun a b => by unfold lowerLe; infer_instance

/-- Embeds `dictionary::Indices = HashMap<String, Vec<usize>>` as an
association list with unique keys (the code never iterates the map). -/
abbrev Indices := List (String × List Nat)

/-- Position list recorded for a word; `[]` when the word is absent
(`indices.get(word)` returning `None`). -/
def getIdxs (m : Indices) (w : String) : List Nat :=
  match m.find? fun kv => kv.1 == w with
  | some kv => kv.2
  | none => []

/-- Embeds `dictionary::insert_word_into_indices` (dictionary.rs 189-194):
`indices.entry(word).or_insert(vec![])`, then push `sentence_index` unless the
entry already contains it. -/
def insert_word_into_indices (m : Indices) (word : String) (i : Nat) : Indices :=
  match m with
  | [] => [(word, [i])]
  | (k, v) :: rest =>
    if k == word then
      if v.contains i then (k, v) :: rest else (k, v ++ [i]) :: rest
    else (k, v) :: insert_word_into_indices rest word i

/-- Embeds `dictionary::Dictionary` (dictionary.rs 49-53). -/
structure Dictionary where
  sentences : List String
  indices : Indices
deriving DecidableEq

/-- Embeds `Dictionary::new_empty` (dictionary.rs 85-90). -/
def Dictionary.new_empty : Dictionary := ⟨[], []⟩

/-- Loop of the Rust standard library `slice::binary_search` of the source's
era: while `size > 1`, probe `mid = base + size / 2` and keep the half whose
first element is not greater than the target. The fuel argument only bounds
the iteration count; the loop reaches `size = 1` within `size` steps because
`size` strictly decreases, so with initial fuel `size` the model equals the
unbounded loop. -/
def bsLoop (s : List String) (target : String) : Nat → Nat → Nat → Nat
  | 0, base, _ => base
  | fuel + 1, base, size =>
    if 1 < size then
      let half := size / 2
      let mid := base + half
      let base' := if strCmp (s.getD mid "") target == .gt then base else mid
      bsLoop s target fuel base' (size - half)
    else base

/-- Embeds `slice::binary_search` on a sentence list, returning whether the
target was found: `Err(0)` on an empty slice, otherwise run the halving loop
and compare the final probe for equality. -/
def binary_search (s : List String) (target : String) : Bool :=
  if s.length == 0 then false
  else strCmp (s.getD (bsLoop s target s.length 0 s.length) "") target == .eq

/-- Embeds `Dictionary::knows_sentence` (dictionary.rs 118-120):
`self.sentences.binary_search(&sentence.to_owned()).is_ok()`. -/
def knows_sentence (d : Dictionary) (sentence : String) : Bool :=
  binary_search d.sentences sentence

/-- The inner loop of `Dictionary::learn` and `Dictionary::rebuild_indices`:
insert every word of one sentence at position `i`. -/
def insertWords (m : Indices) (i : Nat) (ws : List String) : Indices :=
  ws.foldl (fun m w => insert_word_into_indices m w i) m

/-- The sentence loop of `Dictionary::learn` (dictionary.rs 126-142), with the
already-split lower-cased sentences as explicit list and the
`learned_something` flag threaded through. -/
def learnList (d : Dictionary) (learned : Bool) : List String → Dictionary × Bool
  | [] => (d, learned)
  | s :: rest =>
    if knows_sentence d s then learnList d learned rest
    else
      let sentences1 := d.sentences ++ [s]
      let idx := sentences1.length - 1
      learnList ⟨sentences1, insertWords d.indices idx (split_words s)⟩ true rest

/-- Embeds `Dictionary::learn` (dictionary.rs 126-142): lower-case the line,
split it into sentences, append each unknown sentence and index its words;
returns the updated dictionary and whether anything was learned. -/
def learn (d : Dictionary) (line : String) : Dictionary × Bool :=
  learnList d false (split_sentences (str_toLower line))

/-- Embeds `dictionary::sort_sentences` (dictionary.rs 185-187):
`sort_by(|a, b| a.to_lowercase().cmp(&b.to_lowercase()))`. Rust's sort is
stable, as is insertion sort; a stable sort by a fixed total preorder has a
unique result, so the two agree. -/
def sort_sentences (l : List String) : List String := l.insertionSort lowerLe

/-- The `enumerate`-and-index loop of `Dictionary::rebuild_indices`
(dictionary.rs 104-114), with the running position made explicit. -/
def build_aux (m : Indices) (i : Nat) : List String → Indices
  | [] => m
  | s :: rest => build_aux (insertWords m i (split_words (str_toLower s))) (i + 1) rest

/-- Index derived from scratch from a sentence list, in sentence order. -/
def build_indices (ss : List String) : Indices := build_aux [] 0 ss

/-- Embeds `Dictionary::rebuild_indices` (dictionary.rs 100-116): reset the
index, sort the sentences case-insensitively, then re-derive the full index. -/
def rebuild_indices (d : Dictionary) : Dictionary :=
  let ss := sort_sentences d.sentences
  ⟨ss, build_indices ss⟩

/-- Embeds `Dictionary::knows_word` (dictionary.rs 122-124). -/
def knows_word (d : Dictionary) (w : String) : Bool :=
  (d.indices.find? fun kv => kv.1 == w).isSome

/-- Embeds `Dictionary::known_words` (dictionary.rs 155-161): the words of
the lower-cased line that the index knows, in order, duplicates kept. -/
def known_words (d : Dictionary) (line : String) : List String :=
  (split_words (str_toLower line)).filter fun w => knows_word d w

/-- Embeds `Dictionary::sentences_with_word` (dictionary.rs 163-168): the
sentences at the positions recorded for the word, `[]` if the word is
unknown. -/
def sentences_with_word (d : Dictionary) (w : String) : List String :=
  (getIdxs d.indices w).map fun i => d.sentences.getD i ""

/-- Modelled from the spec: the body of `Dictionary::respond_to`
(dictionary.rs 144-153) is `todo!()` in the source; only its signature,
callers and the helper functions exist. Spec section 4.3 prescribes the
missing algorithm: compute the known words of the line; if there are none,
produce no response; otherwise pick a pivot word uniformly at random with the
supplied random source, then pick, again uniformly, one sentence containing
that pivot and return it verbatim. -/
def respond_to (d : Dictionary) (line : String) (rng : List Nat) :
    Option String × List Nat :=
  let kw := known_words d line
  if kw.isEmpty then (none, rng)
  else
    let (v1, rng1) := next_u32 rng
    let pivot := kw.getD (v1 % kw.length) ""
    let cands := sentences_with_word d pivot
    if cands.isEmpty then (none, rng1)
    else
      let (v2, rng2) := next_u32 rng1
      (some (cands.getD (v2 % cands.length) ""), rng2)

/-! ## Order facts about the string comparator -/

theorem char_eq_of_toNat_eq {a b : Char} (h : a.toNat = b.toNat) : a = b := by
  apply Char.eq_of_val_eq
  apply UInt32.eq_of_val_eq
  exact Fin.ext h

theorem charListCmp_eq_iff : ∀ a b : List Char, charListCmp a b = .eq ↔ a = b := by
  intro a
  induction a with
  | nil => intro b; cases b <;> simp [charListCmp]
  | cons x xs ih =>
    intro b
    cases b with
    | nil => simp [charListCmp]
    | cons y ys =>
      unfold charListCmp
      by_cases h1 : x.toNat < y.toNat
      · simp only [h1, if_true]
        constructor
        · intro h; cases h
        · intro h
          injection h with h _
          subst h
          exact absurd h1 (lt_irrefl _)
      · by_cases h2 : y.toNat < x.toNat
        · simp only [h1, h2, if_false, if_true]
          constructor
          · intro h; cases h
          · intro h
            injection h with h _
            subst h
            exact absurd h2 (lt_irrefl _)
        · have hxy : x = y := char_eq_of_toNat_eq (by omega)
          subst hxy
          simp only [h1, h2, if_false]
          rw [ih ys]
          constructor
          · intro h; rw [h]
          · intro h; injection h

theorem charListCmp_gt_iff_lt : ∀ a b : List Char,
    charListCmp a b = .gt ↔ charListCmp b a = .lt := by
  intro a
  induction a with
  | nil => intro b; cases b <;> simp [charListCmp]
  | cons x xs ih =>
    intro b
    cases b with
    | nil => simp [charListCmp]
    | cons y ys =>
      unfold charListCmp
      by_cases h1 : x.toNat < y.toNat
      · have h2 : ¬ y.toNat < x.toNat := by omega
        simp [h1, h2]
      · by_cases h2 : y.toNat < x.toNat
        · simp [h1, h2]
        · simp [h1, h2, ih ys]

theorem charListCmp_lt_trans : ∀ a b c : List Char,
    charListCmp a b = .lt → charListCmp b c = .lt → charListCmp a c = .lt := by
  intro a
  induction a with
  | nil =>
    intro b c hab hbc
    cases b with
    | nil => cases hab
    | cons y ys =>
      cases c with
      | nil => cases hbc
      | cons z zs => simp [charListCmp]
  | cons x xs ih =>
    intro b c hab hbc
    cases b with
    | nil => cases hab
    | cons y ys =>
      cases c with
      | nil => cases hbc
      | cons z zs =>
        unfold charListCmp at hab hbc ⊢
        by_cases h1 : x.toNat < y.toNat
        · by_cases h2 : y.toNat < z.toNat
          · have : x.toNat < z.toNat := by omega
            simp [this]
          · by_cases h3 : z.toNat < y.toNat
            · simp [h2, h3] at hbc
            · have hyz : y = z := char_eq_of_toNat_eq (by omega)
              subst hyz
              simp [h1]
        · by_cases h4 : y.toNat < x.toNat
          · simp [h1, h4] at hab
          · have hxy : x = y := char_eq_of_toNat_eq (by omega)
            subst hxy
            simp only [h1, h4, if_false] at hab ⊢
            by_cases h2 : x.toNat < z.toNat
            · simp [h2]
            · by_cases h3 : z.toNat < x.toNat
              · simp [h2, h3] at hbc
              · simp only [h2, h3, if_false] at hbc ⊢
                exact ih ys zs hab hbc

theorem strCmp_eq_iff (a b : String) : strCmp a b = .eq ↔ a = b := by
  unfold strCmp
  rw [charListCmp_eq_iff]
  constructor
  · intro h
    cases a; cases b
    exact congrArg String.mk h
  · intro h; rw [h]

theorem strCmp_self (a : String) : strCmp a a = .eq := (strCmp_eq_iff a a).mpr rfl

theorem strCmp_gt_iff_lt (a b : String) : strCmp a b = .gt ↔ strCmp b a = .lt :=
  charListCmp_gt_iff_lt a.data b.data

theorem strCmp_lt_trans {a b c : String} (hab : strCmp a b = .lt)
    (hbc : strCmp b c = .lt) : strCmp a c = .lt :=
  charListCmp_lt_trans a.data b.data c.data hab hbc

/-- Every comparison is `lt`, `eq` or `gt`; `ne_gt` therefore means `lt` or
equality. -/
theorem strCmp_ne_gt_iff (a b : String) :
    strCmp a b ≠ .gt ↔ strCmp a b = .lt ∨ a = b := by
  constructor
  · intro h
    cases hc : strCmp a b with
    | lt => exact Or.inl rfl
    | eq => exact Or.inr ((strCmp_eq_iff a b).mp hc)
    | gt => exact absurd hc h
  · intro h hgt
    cases h with
    | inl h => rw [h] at hgt; cases hgt
    | inr h =>
      subst h
      rw [strCmp_self] at hgt
      cases hgt

theorem strCmp_le_trans {a b c : String} (hab : strCmp a b ≠ .gt)
    (hbc : strCmp b c ≠ .gt) : strCmp a c ≠ .gt := by
  rw [strCmp_ne_gt_iff] at hab hbc ⊢
  rcases hab with h1 | h1
  · rcases hbc with h2 | h2
    · exact Or.inl (strCmp_lt_trans h1 h2)
    · subst h2; exact Or.inl h1
  · subst h1
    exact hbc

theorem strCmp_le_total (a b : String) : strCmp a b ≠ .gt ∨ strCmp b a ≠ .gt := by
  by_cases h : strCmp a b = .gt
  · right
    rw [strCmp_ne_gt_iff]
    exact Or.inl ((strCmp_gt_iff_lt a b).mp h)
  · exact Or.inl h

/-- Antisymmetry of the byte-order comparator. -/
theorem strCmp_antisymm {a b : String} (hab : strCmp a b ≠ .gt)
    (hba : strCmp b a ≠ .gt) : a = b := by
  rw [strCmp_ne_gt_iff] at hab hba
  rcases hab with h1 | h1
  · rcases hba with h2 | h2
    · exact absurd ((strCmp_gt_iff_lt b a).mpr h1) (by rw [h2]; intro h; cases h)
    · exact h2.symm
  · exact h1

instance : IsTotal String lowerLe :=
  ⟨fun a b => strCmp_le_total (str_toLower a) (str_toLower b)⟩

instance : IsTrans String lowerLe :=
  ⟨fun _ _ _ h1 h2 => strCmp_le_trans h1 h2⟩

/-! ## Lemmas about the word index -/

theorem getIdxs_nil (w : String) : getIdxs [] w = [] := rfl

theorem getIdxs_cons (k : String) (v : List Nat) (rest : Indices) (w : String) :
    getIdxs ((k, v) :: rest) w = if k = w then v else getIdxs rest w := by
  unfold getIdxs
  by_cases h : k = w
  · subst h
    rw [List.find?_cons_of_pos _ (by simp)]
    simp
  · rw [List.find?_cons_of_neg _ (by simpa using h)]
    simp [h]

theorem mem_of_contains {l : List Nat} {a : Nat} (h : l.contains a = true) : a ∈ l :=
  List.elem_iff.mp h

theorem not_mem_of_not_contains {l : List Nat} {a : Nat}
    (h : ¬ l.contains a = true) : a ∉ l := fun hm => h (List.elem_iff.mpr hm)

theorem getIdxs_insert_self (m : Indices) (w : String) (i : Nat) :
    getIdxs (insert_word_into_indices m w i) w =
      if (getIdxs m w).contains i then getIdxs m w else getIdxs m w ++ [i] := by
  induction m with
  | nil => simp [insert_word_into_indices, getIdxs_nil, getIdxs_cons]
  | cons kv rest ih =>
    obtain ⟨k, v⟩ := kv
    unfold insert_word_into_indices
    by_cases h : k = w
    · subst h
      simp only [beq_self_eq_true, if_true]
      by_cases hc : v.contains i
      · rw [if_pos hc, getIdxs_cons, if_pos rfl, if_pos hc]
      · rw [if_neg hc, getIdxs_cons, if_pos rfl, getIdxs_cons, if_pos rfl, if_neg hc]
    · have hb : (k == w) = false := by simpa using h
      simp only [hb, Bool.false_eq_true, if_false]
      rw [getIdxs_cons, getIdxs_cons, if_neg h, if_neg h, ih]

theorem getIdxs_insert_other (m : Indices) (w : String) (i : Nat) (x : String)
    (hx : x ≠ w) : getIdxs (insert_word_into_indices m w i) x = getIdxs m x := by
  induction m with
  | nil =>
    have hwx : ¬ w = x := fun h => hx h.symm
    simp [insert_word_into_indices, getIdxs_nil, getIdxs_cons, hwx]
  | cons kv rest ih =>
    obtain ⟨k, v⟩ := kv
    unfold insert_word_into_indices
    by_cases h : k = w
    · subst h
      simp only [beq_self_eq_true, if_true]
      have hkx : ¬ k = x := fun h => hx h.symm
      by_cases hc : v.contains i
      · rw [if_pos hc]
      · rw [if_neg hc, getIdxs_cons, getIdxs_cons, if_neg hkx, if_neg hkx]
    · have hb : (k == w) = false := by simpa using h
      simp only [hb, Bool.false_eq_true, if_false]
      rw [getIdxs_cons, getIdxs_cons, ih]

/-- Inserting one word either leaves a position list unchanged or appends the
new position to it. -/
theorem getIdxs_insert_append (m : Indices) (w : String) (i : Nat) (x : String) :
    ∃ t, getIdxs (insert_word_into_indices m w i) x = getIdxs m x ++ t := by
  by_cases h : x = w
  · subst h
    rw [getIdxs_insert_self]
    by_cases hc : (getIdxs m x).contains i
    · exact ⟨[], by rw [if_pos hc, List.append_nil]⟩
    · exact ⟨[i], by rw [if_neg hc]⟩
  · exact ⟨[], by rw [getIdxs_insert_other m w i x h, List.append_nil]⟩

theorem nodup_getIdxs_insert (m : Indices) (w : String) (i : Nat) (x : String)
    (hn : (getIdxs m x).Nodup) :
    (getIdxs (insert_word_into_indices m w i) x).Nodup := by
  by_cases h : x = w
  · subst h
    rw [getIdxs_insert_self]
    by_cases hc : (getIdxs m x).contains i
    · rwa [if_pos hc]
    · have hmem : i ∉ getIdxs m x := not_mem_of_not_contains hc
      rw [if_neg hc]
      rw [List.nodup_append]
      refine ⟨hn, List.nodup_singleton i, ?_⟩
      intro a ha hai
      rw [List.mem_singleton] at hai
      exact hmem (hai ▸ ha)
  · rwa [getIdxs_insert_other m w i x h]

theorem mem_getIdxs_insert (m : Indices) (w : String) (i : Nat) (x : String)
    (j : Nat) :
    j ∈ getIdxs (insert_word_into_indices m w i) x ↔
      j ∈ getIdxs m x ∨ (x = w ∧ j = i) := by
  by_cases h : x = w
  · subst h
    rw [getIdxs_insert_self]
    by_cases hc : (getIdxs m x).contains i
    · have hi : i ∈ getIdxs m x := mem_of_contains hc
      rw [if_pos hc]
      constructor
      · exact fun hj => Or.inl hj
      · rintro (hj | ⟨_, rfl⟩)
        · exact hj
        · exact hi
    · rw [if_neg hc, List.mem_append, List.mem_singleton]
      constructor
      · rintro (hj | rfl)
        · exact Or.inl hj
        · exact Or.inr ⟨rfl, rfl⟩
      · rintro (hj | ⟨_, rfl⟩)
        · exact Or.inl hj
        · exact Or.inr rfl
  · rw [getIdxs_insert_other m w i x h]
    simp [h]

theorem mem_getIdxs_insertWords (ws : List String) (m : Indices) (i : Nat)
    (x : String) (j : Nat) :
    j ∈ getIdxs (insertWords m i ws) x ↔
      j ∈ getIdxs m x ∨ (j = i ∧ x ∈ ws) := by
  induction ws generalizing m with
  | nil => simp [insertWords]
  | cons w rest ih =>
    show j ∈ getIdxs (insertWords (insert_word_into_indices m w i) i rest) x ↔ _
    rw [ih, mem_getIdxs_insert]
    constructor
    · rintro ((hj | ⟨rfl, rfl⟩) | ⟨rfl, hx⟩)
      · exact Or.inl hj
      · exact Or.inr ⟨rfl, List.mem_cons_self _ _⟩
      · exact Or.inr ⟨rfl, List.mem_cons_of_mem _ hx⟩
    · rintro (hj | ⟨rfl, hx⟩)
      · exact Or.inl (Or.inl hj)
      · rcases List.mem_cons.mp hx with rfl | hx
        · exact Or.inl (Or.inr ⟨rfl, rfl⟩)
        · exact Or.inr ⟨rfl, hx⟩

theorem nodup_getIdxs_insertWords (ws : List String) (m : Indices) (i : Nat)
    (x : String) (hn : (getIdxs m x).Nodup) :
    (getIdxs (insertWords m i ws) x).Nodup := by
  induction ws generalizing m with
  | nil => simpa [insertWords]
  | cons w rest ih =>
    exact ih (insert_word_into_indices m w i) (nodup_getIdxs_insert m w i x hn)

theorem getIdxs_insertWords_append (ws : List String) (m : Indices) (i : Nat)
    (x : String) :
    ∃ t, getIdxs (insertWords m i ws) x = getIdxs m x ++ t := by
  induction ws generalizing m with
  | nil => exact ⟨[], by simp [insertWords]⟩
  | cons w rest ih =>
    obtain ⟨t1, ht1⟩ := getIdxs_insert_append m w i x
    obtain ⟨t2, ht2⟩ := ih (insert_word_into_indices m w i)
    refine ⟨t1 ++ t2, ?_⟩
    show getIdxs (insertWords (insert_word_into_indices m w i) i rest) x = _
    rw [ht2, ht1, List.append_assoc]

/-! ## Lemmas about index rebuilding and learning -/

theorem mem_getIdxs_build_aux (ss : List String) (m : Indices) (i : Nat)
    (x : String) (j : Nat) :
    j ∈ getIdxs (build_aux m i ss) x ↔
      j ∈ getIdxs m x ∨
        ∃ k, k < ss.length ∧ j = i + k ∧
          x ∈ split_words (str_toLower (ss.getD k "")) := by
  induction ss generalizing m i with
  | nil => simp [build_aux]
  | cons s rest ih =>
    show j ∈ getIdxs (build_aux (insertWords m i (split_words (str_toLower s))) (i + 1) rest) x ↔ _
    rw [ih, mem_getIdxs_insertWords]
    constructor
    · rintro ((hj | ⟨rfl, hx⟩) | ⟨k, hk, rfl, hx⟩)
      · exact Or.inl hj
      · exact Or.inr ⟨0, by simp, by omega, by simpa using hx⟩
      · refine Or.inr ⟨k + 1, ?_, by omega, by simpa using hx⟩
        rw [List.length_cons]
        omega
    · rintro (hj | ⟨k, hk, rfl, hx⟩)
      · exact Or.inl (Or.inl hj)
      · rw [List.length_cons] at hk
        cases k with
        | zero => exact Or.inl (Or.inr ⟨by omega, by simpa using hx⟩)
        | succ k =>
          refine Or.inr ⟨k, by omega, by omega, ?_⟩
          simpa using hx

theorem mem_getIdxs_build_indices (ss : List String) (x : String) (j : Nat) :
    j ∈ getIdxs (build_indices ss) x ↔
      j < ss.length ∧ x ∈ split_words (str_toLower (ss.getD j "")) := by
  unfold build_indices
  rw [mem_getIdxs_build_aux]
  simp only [getIdxs_nil, List.not_mem_nil, false_or]
  constructor
  · rintro ⟨k, hk, rfl, hx⟩
    rw [Nat.zero_add]
    exact ⟨hk, hx⟩
  · rintro ⟨hj, hx⟩
    exact ⟨j, hj, by omega, hx⟩

theorem learnList_spec (ss : List String) (d : Dictionary) (flag : Bool) :
    (∃ t, (learnList d flag ss).1.sentences = d.sentences ++ t) ∧
    (∀ w, ∃ t, getIdxs (learnList d flag ss).1.indices w = getIdxs d.indices w ++ t) ∧
    ((learnList d flag ss).1.sentences = d.sentences → (learnList d flag ss).1 = d) ∧
    (learnList d flag ss).2 =
      (flag || decide (d.sentences.length < (learnList d flag ss).1.sentences.length)) := by
  induction ss generalizing d flag with
  | nil =>
    refine ⟨⟨[], by simp [learnList]⟩, fun w => ⟨[], by simp [learnList]⟩,
      fun _ => rfl, ?_⟩
    simp [learnList]
  | cons s rest ih =>
    by_cases hk : knows_sentence d s
    · have hstep : learnList d flag (s :: rest) = learnList d flag rest := by
        simp [learnList, hk]
      rw [hstep]
      exact ih d flag
    · have hstep : learnList d flag (s :: rest) =
          learnList
            ⟨d.sentences ++ [s],
              insertWords d.indices ((d.sentences ++ [s]).length - 1) (split_words s)⟩
            true rest := by
        simp [learnList, hk]
      rw [hstep]
      set d1 : Dictionary :=
        ⟨d.sentences ++ [s],
          insertWords d.indices ((d.sentences ++ [s]).length - 1) (split_words s)⟩ with hd1
      obtain ⟨⟨t, ht⟩, hidx, _, hflag⟩ := ih d1 true
      have hsent1 : d1.sentences = d.sentences ++ [s] := rfl
      refine ⟨⟨[s] ++ t, by rw [ht, hsent1, List.append_assoc]⟩, ?_, ?_, ?_⟩
      · intro w
        obtain ⟨t2, ht2⟩ := hidx w
        obtain ⟨t1, ht1⟩ :=
          getIdxs_insertWords_append (split_words s) d.indices
            ((d.sentences ++ [s]).length - 1) w
        exact ⟨t1 ++ t2, by rw [ht2, hsent1] at *; rw [ht2, ht1, List.append_assoc]⟩
      · intro habs
        exfalso
        rw [ht, hsent1, List.append_assoc] at habs
        have := congrArg List.length habs
        simp at this
      · rw [hflag, ht, hsent1]
        have h1 : d.sentences.length <
            (d.sentences ++ [s] ++ t).length := by simp
        simp [h1]

/-- Frame lemma for one `learn` call, instantiating `learnList_spec` at the
initial `learned_something = false`. -/
theorem learn_frame (d : Dictionary) (line : String) :
    (∃ t, (learn d line).1.sentences = d.sentences ++ t) ∧
    (∀ w, ∃ t, getIdxs (learn d line).1.indices w = getIdxs d.indices w ++ t) ∧
    ((learn d line).2 = true ↔
      d.sentences.length < (learn d line).1.sentences.length) ∧
    ((learn d line).2 = false → (learn d line).1 = d) := by
  obtain ⟨hpre, hidx, hunch, hflag⟩ :=
    learnList_spec (split_sentences (str_toLower line)) d false
  refine ⟨hpre, hidx, ?_, ?_⟩
  · rw [show learn d line = learnList d false (split_sentences (str_toLower line)) from rfl]
    rw [hflag]
    simp
  · intro hfalse
    rw [show learn d line = learnList d false (split_sentences (str_toLower line)) from rfl] at *
    rw [hflag] at hfalse
    simp at hfalse
    apply hunch
    obtain ⟨t, ht⟩ := hpre
    rw [ht] at hfalse ⊢
    simp at hfalse
    rw [hfalse, List.append_nil]

/-! ## Binary search on a sorted sentence list -/

/-- The sentence list is sorted in the byte order that `knows_sentence`'s
binary search compares with (ascending, duplicates allowed). -/
def ByteSorted (l : List String) : Prop :=
  List.Pairwise (fun a b => strCmp a b ≠ .gt) l

theorem byteSorted_getD {s : List String} (h : ByteSorted s) {i j : Nat}
    (hij : i < j) (hj : j < s.length) :
    strCmp (s.getD i "") (s.getD j "") ≠ .gt := by
  have hi : i < s.length := lt_trans hij hj
  rw [List.getD_eq_getElem s "" hi, List.getD_eq_getElem s "" hj]
  have := List.pairwise_iff_get.mp h ⟨i, hi⟩ ⟨j, hj⟩ (Fin.mk_lt_mk.mpr hij)
  simpa using this

theorem ordering_beq_gt_iff (o : Ordering) : (o == Ordering.gt) = true ↔ o = Ordering.gt := by
  cases o <;> decide

theorem bsLoop_finds (s : List String) (target : String) (hs : ByteSorted s) :
    ∀ fuel base size, 0 < size → base + size ≤ s.length → size ≤ fuel →
      (∃ i, base ≤ i ∧ i < base + size ∧ s.getD i "" = target) →
      s.getD (bsLoop s target fuel base size) "" = target := by
  intro fuel
  induction fuel with
  | zero => intro base size h1 _ h3 _; omega
  | succ fuel ih =>
    intro base size hpos hlen hfuel hwit
    obtain ⟨i, hbi, hib, hi⟩ := hwit
    by_cases hbig : 1 < size
    · have hstep : bsLoop s target (fuel + 1) base size =
          bsLoop s target fuel
            (if strCmp (s.getD (base + size / 2) "") target == Ordering.gt
              then base else base + size / 2)
            (size - size / 2) := by
        simp only [bsLoop]
        rw [if_pos hbig]
      rw [hstep]
      have hhalf1 : 1 ≤ size / 2 := by omega
      have hhalf2 : size / 2 < size := by omega
      by_cases hgt : strCmp (s.getD (base + size / 2) "") target = Ordering.gt
      · rw [if_pos ((ordering_beq_gt_iff _).mpr hgt)]
        have hilt : i < base + size / 2 := by
          by_contra hge
          push_neg at hge
          rcases Nat.eq_or_lt_of_le hge with heq | hlt
          · rw [heq, hi, strCmp_self] at hgt
            cases hgt
          · have := byteSorted_getD hs hlt (by omega)
            rw [hi] at this
            exact this hgt
        exact ih base (size - size / 2) (by omega) (by omega) (by omega)
          ⟨i, hbi, by omega, hi⟩
      · rw [if_neg (fun hb => hgt ((ordering_beq_gt_iff _).mp hb))]
        by_cases hmidle : base + size / 2 ≤ i
        · exact ih (base + size / 2) (size - size / 2) (by omega) (by omega)
            (by omega) ⟨i, hmidle, by omega, hi⟩
        · push_neg at hmidle
          have hle1 : strCmp (s.getD i "") (s.getD (base + size / 2) "") ≠ .gt :=
            byteSorted_getD hs hmidle (by omega)
          rw [hi] at hle1
          have hmid : s.getD (base + size / 2) "" = target :=
            strCmp_antisymm hgt hle1
          exact ih (base + size / 2) (size - size / 2) (by omega) (by omega)
            (by omega) ⟨base + size / 2, le_refl _, by omega, hmid⟩
    · have hstep : bsLoop s target (fuel + 1) base size = base := by
        simp only [bsLoop]
        rw [if_neg hbig]
      rw [hstep]
      have : i = base := by omega
      rwa [this] at hi

/-- Completeness of the embedded binary search: on a byte-sorted list every
member is found. -/
theorem binary_search_complete (s : List String) (target : String)
    (hs : ByteSorted s) (hmem : target ∈ s) : binary_search s target = true := by
  obtain ⟨n, hn⟩ := List.mem_iff_get.mp hmem
  have hlen : 0 < s.length := lt_of_le_of_lt (Nat.zero_le _) n.isLt
  have hne : (s.length == 0) = false := by
    simp only [beq_eq_false_iff_ne, ne_eq]
    omega
  unfold binary_search
  rw [hne]
  simp only [Bool.false_eq_true, if_false]
  have hfound : s.getD (bsLoop s target s.length 0 s.length) "" = target := by
    apply bsLoop_finds s target hs s.length 0 s.length hlen (by omega) (le_refl _)
    refine ⟨n.val, Nat.zero_le _, by rw [Nat.zero_add]; exact n.isLt, ?_⟩
    rw [List.getD_eq_getElem s "" n.isLt]
    simpa [List.get_eq_getElem] using hn
  rw [hfound, strCmp_self]
  rfl

/-- On a byte-sorted dictionary, a learn pass over sentences that are all
already stored changes nothing and sets no flag. -/
theorem learnList_all_known (d : Dictionary) (hs : ByteSorted d.sentences) :
    ∀ ss : List String, (∀ s ∈ ss, s ∈ d.sentences) →
      learnList d false ss = (d, false) := by
  intro ss
  induction ss with
  | nil => intro _; rfl
  | cons s rest ih =>
    intro hall
    have hknows : knows_sentence d s = true :=
      binary_search_complete d.sentences s hs (hall s (List.mem_cons_self _ _))
    have hstep : learnList d false (s :: rest) = learnList d false rest := by
      simp [learnList, hknows]
    rw [hstep]
    exact ih fun t ht => hall t (List.mem_cons_of_mem _ ht)

/-! ## Helper lemmas for the decision engine -/

/-- When every pattern of the list is compiled and some pattern matches,
`matches_any` returns a found pattern (no panic, no miss). -/
theorem matches_any_finds {input : String} {ps : List Pattern}
    (hcomp : ∀ p ∈ ps, (p.compiled).isSome)
    (hmatch : ∃ p ∈ ps, ∃ f, p.compiled = some f ∧ f input = true) :
    ∃ q, matches_any input ps = .found q := by
  induction ps with
  | nil =>
    obtain ⟨p, hp, _⟩ := hmatch
    cases hp
  | cons p rest ih =>
    obtain ⟨f, hf⟩ := Option.isSome_iff_exists.mp (hcomp p (List.mem_cons_self _ _))
    by_cases hfi : f input = true
    · exact ⟨p, by simp [matches_any, hf, hfi]⟩
    · have hstep : matches_any input (p :: rest) = matches_any input rest := by
        simp [matches_any, hf, hfi]
      rw [hstep]
      apply ih fun q hq => hcomp q (List.mem_cons_of_mem _ hq)
      obtain ⟨q, hq, g, hg, hgi⟩ := hmatch
      rcases List.mem_cons.mp hq with rfl | hq2
      · rw [hf] at hg
        injection hg with hg
        subst hg
        exact absurd hgi hfi
      · exact ⟨q, hq2, g, hg, hgi⟩

/-- An override layer with every field unset. -/
def BehaviorOverride.allUnset (b : BehaviorOverride) : Prop :=
  b.speaking = none ∧ b.learning = none ∧ b.reply_rate = none ∧
  b.reply_nick = none ∧ b.reply_magic = none ∧ b.nick_patterns = none ∧
  b.magic_patterns = none ∧ b.blacklisted_patterns = none ∧ b.ignored_users = none

/-- Every layer of the override chain has every field unset. -/
def chainAllUnset : BehaviorOverrideValueResolver → Prop
  | .base b => b.allUnset
  | .layer b o => b.allUnset ∧ chainAllUnset o

/-- A fully unset chain resolves every one of the nine values to `none`. -/
theorem chainAllUnset_resolves_none (ov : BehaviorOverrideValueResolver)
    (h : chainAllUnset ov) :
    ov.is_speaking = none ∧ ov.is_learning = none ∧ ov.reply_rate = none ∧
    ov.reply_nick = none ∧ ov.reply_magic = none ∧ ov.nick_patterns = none ∧
    ov.magic_patterns = none ∧ ov.blacklisted_patterns = none ∧
    ov.ignored_users = none := by
  induction ov with
  | base b =>
    obtain ⟨h1, h2, h3, h4, h5, h6, h7, h8, h9⟩ := h
    exact ⟨h1, h2, h3, h4, h5, h6, h7, h8, h9⟩
  | layer b o ih =>
    obtain ⟨_, ho⟩ := h
    obtain ⟨i1, i2, i3, i4, i5, i6, i7, i8, i9⟩ := ih ho
    exact ⟨i1, i1, i3, i4, i5, i6, i7, i8, i9⟩

/-- Per-word no-duplicate positions are preserved across one learn pass. -/
theorem learnList_nodup (ss : List String) (d : Dictionary) (flag : Bool)
    (h : ∀ w, (getIdxs d.indices w).Nodup) :
    ∀ w, (getIdxs (learnList d flag ss).1.indices w).Nodup := by
  induction ss generalizing d flag with
  | nil => simpa [learnList]
  | cons s rest ih =>
    by_cases hk : knows_sentence d s
    · have hstep : learnList d flag (s :: rest) = learnList d flag rest := by
        simp [learnList, hk]
      rw [hstep]
      exact ih d flag h
    · have hstep : learnList d flag (s :: rest) =
          learnList
            ⟨d.sentences ++ [s],
              insertWords d.indices ((d.sentences ++ [s]).length - 1) (split_words s)⟩
            true rest := by
        simp [learnList, hk]
      rw [hstep]
      exact ih _ true fun w =>
        nodup_getIdxs_insertWords (split_words s) d.indices _ w (h w)

/-! ## Concrete configurations used by the claim theorems -/

/-- A pattern whose text failed to compile (or was never compiled): the
memoised regex is absent. -/
def uncompiledPattern : Pattern := ⟨none, "["⟩

/-- A compiled pattern matching every input. -/
def matchAllPattern : Pattern := ⟨some fun _ => true, ".*"⟩

/-- Base policy: speaking on, learning off, all rates 0, no patterns. -/
def basePolicy : MainBehavior := ⟨true, false, 0, 0, 0, [], [], [], []⟩

/-- Base policy whose ignored-users list matches everyone and whose speaking
flag is off. -/
def ignoreAllPolicy : MainBehavior := ⟨false, false, 0, 0, 0, [], [], [], [matchAllPattern]⟩

/-- Override layer with every field unset. -/
def unsetOverride : BehaviorOverride :=
  ⟨none, none, none, none, none, none, none, none, none⟩

/-- Override layer that only sets `learning := true`. -/
def learnOnOverride : BehaviorOverride := { unsetOverride with learning := some true }

/-- Override layer that only sets `speaking := false`. -/
def speakOffOverride : BehaviorOverride := { unsetOverride with speaking := some false }

/-! ## Claim theorems -/

/-- C1: the claim states that `matches_any`, on reaching a pattern whose
regex is not compiled, surfaces the failure as an error value returned to the
caller instead of skipping the pattern, treating it as a non-match, or
panicking. The code does the opposite: at this concrete input (input `"x"`,
a single uncompiled pattern) `matches_any` executes the `panic!` branch, so
the process aborts and no error value reaches the caller. -/
theorem c1_matches_any_panics_on_uncompiled :
    matches_any "x" [uncompiledPattern] = .panicked uncompiledPattern := rfl

/-- C2: the claim states the resolver returns the first non-absent value
walking the override chain closest-first, for all nine values. Two concrete
refutations: (1) with a single override layer that sets `learning := some
true` (and leaves `speaking` unset) over a base policy with `learning =
false`, the resolved learning value is the base's `false`, not the layer's
`true` — the resolver reads the layer's `speaking` field; (2) with a
two-layer chain whose closer layer (the nested resolver, as built by
`telegram::Context::behavior_for_chat`) is fully unset and whose farther
layer sets `speaking := some false`, the resolved speaking value is the base
policy's `true` — the set value of the non-innermost layer is never
consulted. -/
theorem c2_resolver_ignores_set_override_values :
    (learnOnOverride.learning = some true ∧ basePolicy.learning = false ∧
      BehaviorValueResolver.is_learning
        ⟨basePolicy, some (.base learnOnOverride)⟩ = false) ∧
    (speakOffOverride.speaking = some false ∧ basePolicy.speaking = true ∧
      BehaviorValueResolver.is_speaking
        ⟨basePolicy, some (.layer speakOffOverride (.base unsetOverride))⟩ = true) :=
  ⟨⟨rfl, rfl, rfl⟩, ⟨rfl, rfl, rfl⟩⟩

/-- C5: if the user id matches an effective ignored-user pattern (and the
ignored-user list is compiled, so the walk cannot panic first),
`should_reply_to` returns `true` immediately — for every behavior, override
chain, input and random source, with the random source untouched. -/
theorem c5_ignored_user_always_gets_reply (behavior : MainBehavior)
    (user_id input : String) (ov : Option BehaviorOverrideValueResolver)
    (rng : List Nat)
    (hcomp : ∀ p ∈ (BehaviorValueResolver.mk behavior ov).ignored_users,
      (p.compiled).isSome)
    (hmatch : ∃ p ∈ (BehaviorValueResolver.mk behavior ov).ignored_users,
      ∃ f, p.compiled = some f ∧ f user_id = true) :
    should_reply_to behavior user_id input ov rng = .ok true rng := by
  obtain ⟨q, hq⟩ := matches_any_finds hcomp hmatch
  simp [should_reply_to, hq]

/-- C5 witness: a concrete policy whose ignored-user pattern matches
everyone, with speaking off and reply rate 0, still replies and leaves the
random source untouched. -/
theorem c5_witness :
    should_reply_to ignoreAllPolicy "user1" "hello" none [7] = .ok true [7] :=
  c5_ignored_user_always_gets_reply ignoreAllPolicy "user1" "hello" none [7]
    (fun p hp => by
      have hp1 : p = matchAllPattern := List.mem_singleton.mp hp
      rw [hp1]
      rfl)
    ⟨matchAllPattern, List.mem_singleton.mpr rfl, fun _ => true, rfl, rfl⟩

/-- C6: with reply rate 0, the user not ignored, speaking effectively on and
no nick or magic pattern matching, `should_reply_to` consumes exactly one
32-bit value `v` from the random source, reduces it to `r = v % 100`, and
replies exactly when `r > 0` — i.e. for the 99 residues `1..=99` and not for
`r = 0` (the coded draw succeeds when `r as f32 > chance || r == 100`, and
`r = 100` never occurs). -/
theorem c6_reply_rate_zero_draws_once (behavior : MainBehavior)
    (user_id input : String) (ov : Option BehaviorOverrideValueResolver)
    (v : Nat) (rest : List Nat) (_hv : v < 2 ^ 32)
    (hign : matches_any user_id
      (BehaviorValueResolver.mk behavior ov).ignored_users = .notFound)
    (hspeak : (BehaviorValueResolver.mk behavior ov).is_speaking = true)
    (hnick : matches_any input
      (BehaviorValueResolver.mk behavior ov).nick_patterns = .notFound)
    (hmagic : matches_any input
      (BehaviorValueResolver.mk behavior ov).magic_patterns = .notFound)
    (hrate : (BehaviorValueResolver.mk behavior ov).reply_rate = 0) :
    should_reply_to behavior user_id input ov (v :: rest) =
      .ok (decide (0 < v % 100)) rest := by
  have hchance : chance 0 v = decide (0 < v % 100) := by
    show (decide ((↑(v % 100) : ℚ) > 0) || decide (v % 100 = 100)) = _
    have h100 : ¬ (v % 100 = 100) := by omega
    rw [decide_eq_false h100, Bool.or_false]
    exact decide_eq_decide.mpr (by exact_mod_cast Iff.rfl)
  simp [should_reply_to, magic_then_rate, reply_rate_step, next_u32, hign, hspeak,
    hnick, hmagic, hrate, hchance]

/-- C6 witness: drawing the value 57 against the base policy with reply rate
0 replies (57 % 100 = 57 > 0) and consumes exactly that one value. -/
theorem c6_witness :
    should_reply_to basePolicy "user1" "hello" none [57] =
      .ok (decide (0 < 57 % 100)) [] :=
  c6_reply_rate_zero_draws_once basePolicy "user1" "hello" none 57 []
    (by decide) rfl rfl rfl rfl rfl

/-- C8: an override chain that leaves every field of every layer unset
resolves all nine configurable values to exactly the base policy's values. -/
theorem c8_unset_chain_resolves_to_base (mb : MainBehavior)
    (ov : BehaviorOverrideValueResolver) (h : chainAllUnset ov) :
    BehaviorValueResolver.is_speaking ⟨mb, some ov⟩ = mb.speaking ∧
    BehaviorValueResolver.is_learning ⟨mb, some ov⟩ = mb.learning ∧
    BehaviorValueResolver.reply_rate ⟨mb, some ov⟩ = mb.reply_rate ∧
    BehaviorValueResolver.reply_nick ⟨mb, some ov⟩ = mb.reply_nick ∧
    BehaviorValueResolver.reply_magic ⟨mb, some ov⟩ = mb.reply_magic ∧
    BehaviorValueResolver.nick_patterns ⟨mb, some ov⟩ = mb.nick_patterns ∧
    BehaviorValueResolver.magic_patterns ⟨mb, some ov⟩ = mb.magic_patterns ∧
    BehaviorValueResolver.blacklisted_patterns ⟨mb, some ov⟩ = mb.blacklisted_patterns ∧
    BehaviorValueResolver.ignored_users ⟨mb, some ov⟩ = mb.ignored_users := by
  obtain ⟨h1, h2, h3, h4, h5, h6, h7, h8, h9⟩ := chainAllUnset_resolves_none ov h
  refine ⟨?_, ?_, ?_, ?_, ?_, ?_, ?_, ?_, ?_⟩
  · simp [BehaviorValueResolver.is_speaking, h1]
  · simp [BehaviorValueResolver.is_learning, h1]
  · simp [BehaviorValueResolver.reply_rate, h3]
  · simp [BehaviorValueResolver.reply_nick, h4]
  · simp [BehaviorValueResolver.reply_magic, h5]
  · simp [BehaviorValueResolver.nick_patterns, h6]
  · simp [BehaviorValueResolver.magic_patterns, h7]
  · simp [BehaviorValueResolver.blacklisted_patterns, h8]
  · simp [BehaviorValueResolver.ignored_users, h9]

/-- C8 witness: a two-layer fully unset chain over the concrete base policy
resolves the nine values to the base policy's. -/
theorem c8_witness :
    BehaviorValueResolver.is_speaking
        ⟨basePolicy, some (.layer unsetOverride (.base unsetOverride))⟩ =
      basePolicy.speaking ∧
    BehaviorValueResolver.is_learning
        ⟨basePolicy, some (.layer unsetOverride (.base unsetOverride))⟩ =
      basePolicy.learning ∧
    BehaviorValueResolver.reply_rate
        ⟨basePolicy, some (.layer unsetOverride (.base unsetOverride))⟩ =
      basePolicy.reply_rate ∧
    BehaviorValueResolver.reply_nick
        ⟨basePolicy, some (.layer unsetOverride (.base unsetOverride))⟩ =
      basePolicy.reply_nick ∧
    BehaviorValueResolver.reply_magic
        ⟨basePolicy, some (.layer unsetOverride (.base unsetOverride))⟩ =
      basePolicy.reply_magic ∧
    BehaviorValueResolver.nick_patterns
        ⟨basePolicy, some (.layer unsetOverride (.base unsetOverride))⟩ =
      basePolicy.nick_patterns ∧
    BehaviorValueResolver.magic_patterns
        ⟨basePolicy, some (.layer unsetOverride (.base unsetOverride))⟩ =
      basePolicy.magic_patterns ∧
    BehaviorValueResolver.blacklisted_patterns
        ⟨basePolicy, some (.layer unsetOverride (.base unsetOverride))⟩ =
      basePolicy.blacklisted_patterns ∧
    BehaviorValueResolver.ignored_users
        ⟨basePolicy, some (.layer unsetOverride (.base unsetOverride))⟩ =
      basePolicy.ignored_users :=
  c8_unset_chain_resolves_to_base basePolicy
    (.layer unsetOverride (.base unsetOverride))
    ⟨⟨rfl, rfl, rfl, rfl, rfl, rfl, rfl, rfl, rfl⟩,
      ⟨rfl, rfl, rfl, rfl, rfl, rfl, rfl, rfl, rfl⟩⟩

/-- C9: `respond_to` (modelled from the spec, the source body being
`todo!()`) is a pure function of the dictionary state, the input line and
the sequence of random draws: two calls with the same state, line and draws
return the same result. -/
theorem c9_respond_to_deterministic (d1 d2 : Dictionary) (l1 l2 : String)
    (r1 r2 : List Nat) (hd : d1 = d2) (hl : l1 = l2) (hr : r1 = r2) :
    respond_to d1 l1 r1 = respond_to d2 l2 r2 := by
  subst hd
  subst hl
  subst hr
  rfl

/-- C9 witness: two identical calls on a concrete one-sentence dictionary
agree. -/
theorem c9_witness :
    respond_to ⟨["hello world!"], [("hello", [0]), ("world", [0])]⟩ "hello" [0, 0] =
      respond_to ⟨["hello world!"], [("hello", [0]), ("world", [0])]⟩ "hello" [0, 0] :=
  c9_respond_to_deterministic _ _ _ _ _ _ rfl rfl rfl

/-- C3 counterexample: the claim states that learning the same sentence
twice stores it only once, for every dictionary state. `learn` deduplicates
through a binary search of the sentence list, which `learn` appends to
without re-sorting: after `learn "b. a."` the list is `["b.", "a."]`
(unsorted), the binary search for `"b."` misses it, and a second
`learn "b. a."` stores `"b."` a second time even though every sentence of
the line was already stored. -/
theorem c3_counterexample :
    (∀ s ∈ split_sentences (str_toLower "b. a."),
      s ∈ (learn Dictionary.new_empty "b. a.").1.sentences) ∧
    (learn (learn Dictionary.new_empty "b. a.").1 "b. a.").2 = true ∧
    ((learn (learn Dictionary.new_empty "b. a.").1 "b. a.").1.sentences.count "b.") = 2 := by
  refine ⟨?_, by decide, by decide⟩
  decide

/-- C3 (amended): the binary-search deduplication of `learn` is only correct
while the sentence list is sorted in the byte order the search compares
with. Amended statement: (1) on a dictionary whose sentence list is sorted,
a `learn` call whose sentences are all already stored adds nothing, returns
`false`, and leaves the dictionary unchanged (on unsorted lists a duplicate
can be stored, as the counterexample shows); (2) unconditionally, the word
index never accumulates a duplicate position: per-word position lists stay
duplicate-free across any `learn` call, hence (3) across any sequence of
`learn` calls starting from the empty dictionary. -/
theorem c3_amended_dedup_needs_sorted :
    (∀ (d : Dictionary) (line : String), ByteSorted d.sentences →
      (∀ s ∈ split_sentences (str_toLower line), s ∈ d.sentences) →
      learn d line = (d, false)) ∧
    (∀ (d : Dictionary) (line : String),
      (∀ w, (getIdxs d.indices w).Nodup) →
      ∀ w, (getIdxs (learn d line).1.indices w).Nodup) ∧
    (∀ (lines : List String) (w : String),
      (getIdxs (lines.foldl (fun d l => (learn d l).1) Dictionary.new_empty).indices w).Nodup) := by
  refine ⟨?_, ?_, ?_⟩
  · intro d line hs hall
    exact learnList_all_known d hs _ hall
  · intro d line h w
    exact learnList_nodup _ d false h w
  · intro lines
    have hgen : ∀ (d : Dictionary), (∀ w, (getIdxs d.indices w).Nodup) →
        ∀ w, (getIdxs (lines.foldl (fun d l => (learn d l).1) d).indices w).Nodup := by
      induction lines with
      | nil => intro d h w; exact h w
      | cons l rest ih =>
        intro d h w
        exact ih (learn d l).1 (fun w2 => learnList_nodup _ d false h w2) w
    intro w
    exact hgen Dictionary.new_empty (fun w2 => by simp [Dictionary.new_empty, getIdxs_nil]) w

/-- C3 amended witness: on the byte-sorted dictionary `["a.", "b."]`,
re-learning the line `"a. b."` (all of whose sentences are known) changes
nothing and reports nothing learned. -/
theorem c3_amended_witness :
    learn ⟨["a.", "b."], [("a", [0]), ("b", [1])]⟩ "a. b." =
      (⟨["a.", "b."], [("a", [0]), ("b", [1])]⟩, false) :=
  c3_amended_dedup_needs_sorted.1 ⟨["a.", "b."], [("a", [0]), ("b", [1])]⟩ "a. b."
    (by constructor
        · intro b hb
          rw [List.mem_singleton.mp hb]
          decide
        · exact List.pairwise_singleton _ _)
    (by decide)

/-- C4: immediately after `rebuild_indices` the sentence list is sorted
case-insensitively ascending (by the lower-cased byte order the source
comparator uses), and the index is exactly consistent: a position `j` is
recorded for a word `w` precisely when `j` is a valid sentence position and
`w` is one of the tokens `split_words` extracts from the lower-cased
sentence at `j` — each direction of the claimed consistency is one direction
of this equivalence. -/
theorem c4_rebuild_sorted_and_consistent (d : Dictionary) :
    List.Sorted lowerLe (rebuild_indices d).sentences ∧
    (∀ w j, j ∈ getIdxs (rebuild_indices d).indices w ↔
      j < (rebuild_indices d).sentences.length ∧
        w ∈ split_words (str_toLower ((rebuild_indices d).sentences.getD j ""))) := by
  constructor
  · show List.Sorted lowerLe (sort_sentences d.sentences)
    exact List.sorted_insertionSort lowerLe d.sentences
  · intro w j
    show j ∈ getIdxs (build_indices (sort_sentences d.sentences)) w ↔ _
    exact mem_getIdxs_build_indices (sort_sentences d.sentences) w j

/-- C7 counterexample: the claim states that the two `learn` calls alone
produce the sorted sentence list `["hello world!", "i love cake.",
"i love pizza."]` with `"cake" -> [1]` and `"pizza" -> [2]`. `learn` appends
without sorting, so the actual state after the two calls is
`["hello world!", "i love pizza.", "i love cake."]` with `"pizza" -> [1]`
and `"cake" -> [2]`. -/
theorem c7_counterexample :
    ¬ ((learn (learn Dictionary.new_empty "Hello world! I love pizza.").1
          "I love cake.").1.sentences =
        ["hello world!", "i love cake.", "i love pizza."] ∧
      getIdxs (learn (learn Dictionary.new_empty "Hello world! I love pizza.").1
          "I love cake.").1.indices "cake" = [1] ∧
      getIdxs (learn (learn Dictionary.new_empty "Hello world! I love pizza.").1
          "I love cake.").1.indices "pizza" = [2]) := by
  decide

/-- C7 (amended): the claimed state is reached only after re-sorting: the two
`learn` calls produce the appended (unsorted) list `["hello world!",
"i love pizza.", "i love cake."]` with index `"love" -> [1,2]`, `"i" ->
[1,2]`, `"hello" -> [0]`, `"world" -> [0]`, `"pizza" -> [1]`, `"cake" ->
[2]`; a subsequent `rebuild_indices()` then yields exactly the claimed
sorted sentences and index (`"love" -> [1,2]`, `"i" -> [1,2]`, `"hello" ->
[0]`, `"world" -> [0]`, `"cake" -> [1]`, `"pizza" -> [2]`). -/
theorem c7_amended_scenario :
    ((learn (learn Dictionary.new_empty "Hello world! I love pizza.").1
        "I love cake.").1.sentences =
      ["hello world!", "i love pizza.", "i love cake."]) ∧
    getIdxs (learn (learn Dictionary.new_empty
        "Hello world! I love pizza.").1 "I love cake.").1.indices "love" = [1, 2] ∧
    getIdxs (learn (learn Dictionary.new_empty
        "Hello world! I love pizza.").1 "I love cake.").1.indices "i" = [1, 2] ∧
    getIdxs (learn (learn Dictionary.new_empty
        "Hello world! I love pizza.").1 "I love cake.").1.indices "hello" = [0] ∧
    getIdxs (learn (learn Dictionary.new_empty
        "Hello world! I love pizza.").1 "I love cake.").1.indices "world" = [0] ∧
    getIdxs (learn (learn Dictionary.new_empty
        "Hello world! I love pizza.").1 "I love cake.").1.indices "pizza" = [1] ∧
    getIdxs (learn (learn Dictionary.new_empty
        "Hello world! I love pizza.").1 "I love cake.").1.indices "cake" = [2] ∧
    (rebuild_indices (learn (learn Dictionary.new_empty "Hello world! I love pizza.").1
        "I love cake.").1).sentences =
      ["hello world!", "i love cake.", "i love pizza."] ∧
    getIdxs (rebuild_indices (learn (learn Dictionary.new_empty
        "Hello world! I love pizza.").1 "I love cake.").1).indices "love" = [1, 2] ∧
    getIdxs (rebuild_indices (learn (learn Dictionary.new_empty
        "Hello world! I love pizza.").1 "I love cake.").1).indices "i" = [1, 2] ∧
    getIdxs (rebuild_indices (learn (learn Dictionary.new_empty
        "Hello world! I love pizza.").1 "I love cake.").1).indices "hello" = [0] ∧
    getIdxs (rebuild_indices (learn (learn Dictionary.new_empty
        "Hello world! I love pizza.").1 "I love cake.").1).indices "world" = [0] ∧
    getIdxs (rebuild_indices (learn (learn Dictionary.new_empty
        "Hello world! I love pizza.").1 "I love cake.").1).indices "cake" = [1] ∧
    getIdxs (rebuild_indices (learn (learn Dictionary.new_empty
        "Hello world! I love pizza.").1 "I love cake.").1).indices "pizza" = [2] := by
  decide

/-- C10: `learn` only appends. For every dictionary state and line: the old
sentence sequence is a prefix of the new one (every stored sentence keeps
its value and position); every previously recorded position list is a prefix
of the new one for that word (no recorded position is lost or reordered);
the call returns `true` exactly when at least one sentence was appended; and
a `false` return means the dictionary is completely unchanged. -/
theorem c10_learn_only_appends (d : Dictionary) (line : String) :
    (∃ t, (learn d line).1.sentences = d.sentences ++ t) ∧
    (∀ w, ∃ t, getIdxs (learn d line).1.indices w = getIdxs d.indices w ++ t) ∧
    ((learn d line).2 = true ↔
      d.sentences.length < (learn d line).1.sentences.length) ∧
    ((learn d line).2 = false → (learn d line).1 = d) :=
  learn_frame d line

/-- C10 witness: learning an already-known line on a concrete dictionary
returns `false` and leaves the dictionary unchanged. -/
theorem c10_witness :
    (learn ⟨["a."], [("a", [0])]⟩ "a.").1 = ⟨["a."], [("a", [0])]⟩ :=
  (c10_learn_only_appends ⟨["a."], [("a", [0])]⟩ "a.").2.2.2 (by decide)
